import Mathlib

/-!
Verification of the `oot_bitset` flag codec.

Shallow embedding of `oot_bitset.h` (crate `oot_bitset` 0.1.1): a compact
bitset over a caller-owned array of 16-bit words, where each flag is a 16-bit
identifier whose upper 12 bits select the word and whose lower 4 bits select
the bit inside that word.

Representation choices:
* a `uint16_t` value is a `Nat` (theorems carry `flag < 65536` where the
  claim is about 16-bit identifiers); a `uint16_t` array is a `List Nat`;
* every arithmetic result in the C source already fits in 16 bits (the shift
  amount in `bitset_mask` is at most 15, so the mask is at most `0x8000`;
  `|=` of two 16-bit words fits in 16 bits; `&=` only clears bits), so the
  implicit integer conversions of C are the identity and no `% 2 ^ 16`
  truncation appears in the embedding;
* `~mask` in `bitset_clear` acts on a 16-bit word, where the one's
  complement is `mask ^^^ 0xFFFF`;
* an out-of-bounds array access is undefined behaviour in C; the embedding
  reads with `List.getD _ _ 0` and writes with `List.set`, and every theorem
  about an array access carries the in-bounds hypothesis
  `bitset_index flag < set.length` that the header documents as the caller's
  obligation.
-/

/-- C source: `static inline uint16_t bitset_index(uint16_t flag) { return flag >> 4; }` -/
def bitset_index (flag : Nat) : Nat :=
  flag >>> 4

/-- C source: `static inline uint16_t bitset_mask(uint16_t flag) { return 1u << (flag & 0xF); }` -/
def bitset_mask (flag : Nat) : Nat :=
  1 <<< (flag &&& 0xF)

/-- C source: `#define bitset_word(set, flag) ((set)[bitset_index(flag)])`, as a read. -/
def bitset_word (set : List Nat) (flag : Nat) : Nat :=
  set.getD (bitset_index flag) 0

/-- C source: `bitset_get`: `return (bitset_word(set, flag) & bitset_mask(flag)) != 0;` -/
def bitset_get (set : List Nat) (flag : Nat) : Bool :=
  (bitset_word set flag &&& bitset_mask flag) != 0

/-- C source: `bitset_set`: `bitset_word(set, flag) |= bitset_mask(flag);` -/
def bitset_set (set : List Nat) (flag : Nat) : List Nat :=
  set.set (bitset_index flag) (bitset_word set flag ||| bitset_mask flag)

/-- C source: `bitset_clear`: `bitset_word(set, flag) &= ~bitset_mask(flag);`
(on a 16-bit word, `~` is `^^^ 0xFFFF`). -/
def bitset_clear (set : List Nat) (flag : Nat) : List Nat :=
  set.set (bitset_index flag) (bitset_word set flag &&& (bitset_mask flag ^^^ 0xFFFF))

/-- The spec's `locate(id) -> (word_index, bit_offset)`, written from the
spec's words for comparison with the source functions:
`word_index = id >> log2(W)`; `bit_offset = id & (W-1)`, with `W = 16`. -/
def locate_spec (id : Nat) : Nat × Nat :=
  (id >>> 4, id &&& (16 - 1))

/-! ## Helper lemmas (shared) -/

theorem and_0xF_lt_16 (f : Nat) : f &&& 0xF < 16 :=
  Nat.lt_succ_of_le Nat.and_le_right

theorem and_0xF_eq_mod (f : Nat) : f &&& 0xF = f % 16 := by
  have h := Nat.and_pow_two_sub_one_eq_mod f 4
  norm_num at h
  exact h

theorem bitset_index_eq_div (f : Nat) : bitset_index f = f / 16 := by
  rw [bitset_index, Nat.shiftRight_eq_div_pow]

theorem bitset_mask_eq_two_pow (f : Nat) : bitset_mask f = 2 ^ (f &&& 0xF) := by
  rw [bitset_mask, Nat.shiftLeft_eq, one_mul]

theorem and_two_pow_ne_zero_iff (w o : Nat) : w &&& 2 ^ o ≠ 0 ↔ w.testBit o = true := by
  rw [Nat.and_two_pow]
  cases h : w.testBit o <;> simp [h]

theorem getD_set_self (l : List Nat) (i a : Nat) (h : i < l.length) :
    (l.set i a).getD i 0 = a := by
  simp [List.getD, h]

theorem getD_set_ne (l : List Nat) (i j a : Nat) (h : i ≠ j) :
    (l.set i a).getD j 0 = l.getD j 0 := by
  simp [List.getD, List.getElem?_set_ne h]

theorem bitset_get_iff_testBit (set : List Nat) (id : Nat) :
    bitset_get set id = true ↔ (bitset_word set id).testBit (id &&& 0xF) = true := by
  rw [bitset_get, bitset_mask_eq_two_pow, bne_iff_ne, and_two_pow_ne_zero_iff]

theorem bitset_get_of_word_eq (s t : List Nat) (id : Nat)
    (h : bitset_word s id = bitset_word t id) :
    bitset_get s id = bitset_get t id := by
  rw [bitset_get, bitset_get, h]

theorem bitset_word_set_self (set : List Nat) (id : Nat)
    (h : bitset_index id < set.length) :
    bitset_word (bitset_set set id) id = bitset_word set id ||| bitset_mask id := by
  rw [bitset_set, bitset_word, getD_set_self]
  exact h

theorem bitset_word_clear_self (set : List Nat) (id : Nat)
    (h : bitset_index id < set.length) :
    bitset_word (bitset_clear set id) id
      = bitset_word set id &&& (bitset_mask id ^^^ 0xFFFF) := by
  rw [bitset_clear, bitset_word, getD_set_self]
  exact h

theorem bitset_get_eq_testBit (set : List Nat) (id : Nat) :
    bitset_get set id = (bitset_word set id).testBit (id &&& 0xF) := by
  rw [Bool.eq_iff_iff]
  exact bitset_get_iff_testBit set id

theorem bitset_word_set_other (set : List Nat) (id1 id2 : Nat)
    (h : bitset_index id1 ≠ bitset_index id2) :
    bitset_word (bitset_set set id1) id2 = bitset_word set id2 :=
  getD_set_ne set (bitset_index id1) (bitset_index id2) _ h

theorem bitset_word_clear_other (set : List Nat) (id1 id2 : Nat)
    (h : bitset_index id1 ≠ bitset_index id2) :
    bitset_word (bitset_clear set id1) id2 = bitset_word set id2 :=
  getD_set_ne set (bitset_index id1) (bitset_index id2) _ h

theorem bitset_set_length (set : List Nat) (id : Nat) :
    (bitset_set set id).length = set.length := by
  simp [bitset_set]

theorem bitset_clear_length (set : List Nat) (id : Nat) :
    (bitset_clear set id).length = set.length := by
  simp [bitset_clear]

theorem get_set_self (set : List Nat) (id : Nat) (h : bitset_index id < set.length) :
    bitset_get (bitset_set set id) id = true := by
  rw [bitset_get_iff_testBit, bitset_word_set_self set id h, Nat.testBit_or,
    bitset_mask_eq_two_pow, Nat.testBit_two_pow_self, Bool.or_true]

theorem clear_complement_testBit (id : Nat) :
    (bitset_mask id ^^^ 0xFFFF).testBit (id &&& 0xF) = false := by
  have hlt : id &&& 0xF < 16 := and_0xF_lt_16 id
  have h65535 : (0xFFFF : Nat) = 2 ^ 16 - 1 := by norm_num
  rw [bitset_mask_eq_two_pow, Nat.testBit_xor, Nat.testBit_two_pow_self, h65535,
    Nat.testBit_two_pow_sub_one]
  simp [hlt]

theorem get_clear_self (set : List Nat) (id : Nat) (h : bitset_index id < set.length) :
    bitset_get (bitset_clear set id) id = false := by
  have hbit : (bitset_word (bitset_clear set id) id).testBit (id &&& 0xF) = false := by
    rw [bitset_word_clear_self set id h, Nat.testBit_and, clear_complement_testBit,
      Bool.and_false]
  rw [← Bool.not_eq_true, bitset_get_iff_testBit, hbit]
  simp

theorem clear_complement_testBit_ne (id j : Nat) (hj : j < 16) (hne : j ≠ id &&& 0xF) :
    (bitset_mask id ^^^ 0xFFFF).testBit j = true := by
  have h65535 : (0xFFFF : Nat) = 2 ^ 16 - 1 := by norm_num
  rw [bitset_mask_eq_two_pow, Nat.testBit_xor,
    Nat.testBit_two_pow_of_ne (fun hc => hne hc.symm), h65535,
    Nat.testBit_two_pow_sub_one]
  simp [hj]

theorem mask_testBit_ne (id j : Nat) (hne : j ≠ id &&& 0xF) :
    (bitset_mask id).testBit j = false := by
  rw [bitset_mask_eq_two_pow]
  exact Nat.testBit_two_pow_of_ne fun hc => hne hc.symm

theorem bitset_word_replicate_zero (n id : Nat) :
    bitset_word (List.replicate n 0) id = 0 := by
  simp [bitset_word, List.getD]

theorem get_replicate_zero (n id : Nat) :
    bitset_get (List.replicate n 0) id = false := by
  rw [bitset_get_eq_testBit, bitset_word_replicate_zero]
  exact Nat.zero_testBit _

theorem bitset_set_twice_same (set : List Nat) (id1 id2 : Nat)
    (hidx : bitset_index id1 = bitset_index id2) (hi1 : bitset_index id1 < set.length) :
    bitset_set (bitset_set set id1) id2
      = set.set (bitset_index id1)
          ((bitset_word set id1 ||| bitset_mask id1) ||| bitset_mask id2) := by
  have hword : bitset_word (bitset_set set id1) id2
      = bitset_word set id1 ||| bitset_mask id1 := by
    rw [bitset_word, ← hidx, ← bitset_word]
    exact bitset_word_set_self set id1 hi1
  show (bitset_set set id1).set (bitset_index id2)
      (bitset_word (bitset_set set id1) id2 ||| bitset_mask id2) = _
  rw [hword, ← hidx, bitset_set, List.set_set]

theorem bitset_clear_twice_same (set : List Nat) (id1 id2 : Nat)
    (hidx : bitset_index id1 = bitset_index id2) (hi1 : bitset_index id1 < set.length) :
    bitset_clear (bitset_clear set id1) id2
      = set.set (bitset_index id1)
          ((bitset_word set id1 &&& (bitset_mask id1 ^^^ 0xFFFF))
            &&& (bitset_mask id2 ^^^ 0xFFFF)) := by
  have hword : bitset_word (bitset_clear set id1) id2
      = bitset_word set id1 &&& (bitset_mask id1 ^^^ 0xFFFF) := by
    rw [bitset_word, ← hidx, ← bitset_word]
    exact bitset_word_clear_self set id1 hi1
  show (bitset_clear set id1).set (bitset_index id2)
      (bitset_word (bitset_clear set id1) id2 &&& (bitset_mask id2 ^^^ 0xFFFF)) = _
  rw [hword, ← hidx, bitset_clear, List.set_set]

theorem bitset_set_twice_other (set : List Nat) (id1 id2 : Nat)
    (hidx : bitset_index id1 ≠ bitset_index id2) :
    bitset_set (bitset_set set id1) id2
      = (bitset_set set id1).set (bitset_index id2)
          (bitset_word set id2 ||| bitset_mask id2) := by
  show (bitset_set set id1).set (bitset_index id2)
      (bitset_word (bitset_set set id1) id2 ||| bitset_mask id2) = _
  rw [bitset_word_set_other set id1 id2 hidx]

theorem bitset_clear_twice_other (set : List Nat) (id1 id2 : Nat)
    (hidx : bitset_index id1 ≠ bitset_index id2) :
    bitset_clear (bitset_clear set id1) id2
      = (bitset_clear set id1).set (bitset_index id2)
          (bitset_word set id2 &&& (bitset_mask id2 ^^^ 0xFFFF)) := by
  show (bitset_clear set id1).set (bitset_index id2)
      (bitset_word (bitset_clear set id1) id2 &&& (bitset_mask id2 ^^^ 0xFFFF)) = _
  rw [bitset_word_clear_other set id1 id2 hidx]

/-! ## Claim theorems -/

/-- C1: `locate(id)` is pure and total with `word_index = id >> 4` and
`bit_offset = id & 0xF` for `W = 16`: the spec's `locate` agrees with the
source's `bitset_index` and the bit offset the source's `bitset_mask` uses,
and both components agree with the direct computation `(id / 16, id % 16)`. -/
theorem locate_agrees (id : Nat) (h : id < 65536) :
    locate_spec id = (bitset_index id, id &&& 0xF) ∧
    bitset_index id = id / 16 ∧ id &&& 0xF = id % 16 :=
  ⟨rfl, bitset_index_eq_div id, and_0xF_eq_mod id⟩

theorem locate_agrees_witness :
    locate_spec 0x75 = (bitset_index 0x75, 0x75 &&& 0xF) ∧
    bitset_index 0x75 = 0x75 / 16 ∧ 0x75 &&& 0xF = 0x75 % 16 :=
  locate_agrees 0x75 (by decide)

/-- C2: `bitset_mask id` equals `1 << (id & 0xF)` and has exactly one bit
set, namely the bit at position `id & 0xF`. -/
theorem mask_single_bit (id : Nat) (h : id < 65536) :
    bitset_mask id = 1 <<< (id &&& 0xF) ∧
    ∀ j : Nat, (bitset_mask id).testBit j = true ↔ j = id &&& 0xF := by
  refine ⟨rfl, fun j => ?_⟩
  rw [bitset_mask_eq_two_pow, Nat.testBit_two_pow]
  simp [eq_comm]

theorem mask_single_bit_witness :
    bitset_mask 0x75 = 1 <<< (0x75 &&& 0xF) ∧
    ∀ j : Nat, (bitset_mask 0x75).testBit j = true ↔ j = 0x75 &&& 0xF :=
  mask_single_bit 0x75 (by decide)

/-- C3: for a storage array with `bitset_index id` in range, `bitset_get`
returns `true` exactly when bit `id & 0xF` of word `id >> 4` is 1.  The
embedding of `bitset_get` is a pure function `List Nat → Nat → Bool`, so it
leaves the storage unchanged by construction. -/
theorem get_reads_bit (set : List Nat) (id : Nat) (h : id < 65536)
    (hidx : bitset_index id < set.length) :
    bitset_get set id = true ↔ (set.getD (bitset_index id) 0).testBit (id &&& 0xF) = true :=
  bitset_get_iff_testBit set id

theorem get_reads_bit_witness :
    bitset_get [0x10, 0x400] 0x04 = true ↔
      (([0x10, 0x400] : List Nat).getD (bitset_index 0x04) 0).testBit (0x04 &&& 0xF) = true :=
  get_reads_bit [0x10, 0x400] 0x04 (by decide) (by decide)

/-- C4: round-trip on an all-zero array: `test` is `false`, after `set` it
is `true`, and after a subsequent `clear` it is `false` again. -/
theorem roundtrip_zero (n id : Nat) (h : id < 65536) (hidx : bitset_index id < n) :
    bitset_get (List.replicate n 0) id = false ∧
    bitset_get (bitset_set (List.replicate n 0) id) id = true ∧
    bitset_get (bitset_clear (bitset_set (List.replicate n 0) id) id) id = false := by
  have hlen : bitset_index id < (List.replicate n (0:Nat)).length := by
    simpa using hidx
  have hlen2 : bitset_index id < (bitset_set (List.replicate n 0) id).length := by
    rw [bitset_set_length]
    simpa using hidx
  exact ⟨get_replicate_zero n id, get_set_self _ id hlen, get_clear_self _ id hlen2⟩

theorem roundtrip_zero_witness :
    bitset_get (List.replicate 2 0) 0x1A = false ∧
    bitset_get (bitset_set (List.replicate 2 0) 0x1A) 0x1A = true ∧
    bitset_get (bitset_clear (bitset_set (List.replicate 2 0) 0x1A) 0x1A) 0x1A = false :=
  roundtrip_zero 2 0x1A (by decide) (by decide)

/-- C5: `bitset_set` and `bitset_clear` are idempotent: applying either
twice to the same in-range identifier gives the same storage as applying it
once. -/
theorem set_clear_idempotent (set : List Nat) (id : Nat) (h : id < 65536)
    (hidx : bitset_index id < set.length) :
    bitset_set (bitset_set set id) id = bitset_set set id ∧
    bitset_clear (bitset_clear set id) id = bitset_clear set id := by
  constructor
  · calc bitset_set (bitset_set set id) id
        = (bitset_set set id).set (bitset_index id)
            (bitset_word (bitset_set set id) id ||| bitset_mask id) := rfl
      _ = (bitset_set set id).set (bitset_index id)
            ((bitset_word set id ||| bitset_mask id) ||| bitset_mask id) := by
            rw [bitset_word_set_self set id hidx]
      _ = set.set (bitset_index id)
            ((bitset_word set id ||| bitset_mask id) ||| bitset_mask id) := by
            rw [bitset_set, List.set_set]
      _ = set.set (bitset_index id) (bitset_word set id ||| bitset_mask id) := by
            rw [Nat.or_assoc, Nat.or_self]
      _ = bitset_set set id := rfl
  · calc bitset_clear (bitset_clear set id) id
        = (bitset_clear set id).set (bitset_index id)
            (bitset_word (bitset_clear set id) id &&& (bitset_mask id ^^^ 0xFFFF)) := rfl
      _ = (bitset_clear set id).set (bitset_index id)
            ((bitset_word set id &&& (bitset_mask id ^^^ 0xFFFF))
              &&& (bitset_mask id ^^^ 0xFFFF)) := by
            rw [bitset_word_clear_self set id hidx]
      _ = set.set (bitset_index id)
            ((bitset_word set id &&& (bitset_mask id ^^^ 0xFFFF))
              &&& (bitset_mask id ^^^ 0xFFFF)) := by
            rw [bitset_clear, List.set_set]
      _ = set.set (bitset_index id) (bitset_word set id &&& (bitset_mask id ^^^ 0xFFFF)) := by
            rw [Nat.and_assoc, Nat.and_self]
      _ = bitset_clear set id := rfl

theorem set_clear_idempotent_witness :
    bitset_set (bitset_set [0, 0] 0x04) 0x04 = bitset_set [0, 0] 0x04 ∧
    bitset_clear (bitset_clear [0, 0] 0x04) 0x04 = bitset_clear [0, 0] 0x04 :=
  set_clear_idempotent [0, 0] 0x04 (by decide) (by decide)

/-- C6: independence: setting or clearing `id1` never changes what `test`
observes for any `id2` mapping to a different (word index, bit offset)
pair. -/
theorem set_clear_independent (set : List Nat) (id1 id2 : Nat)
    (h1 : id1 < 65536) (h2 : id2 < 65536)
    (hi1 : bitset_index id1 < set.length) (hi2 : bitset_index id2 < set.length)
    (hne : (bitset_index id1, id1 &&& 0xF) ≠ (bitset_index id2, id2 &&& 0xF)) :
    bitset_get (bitset_set set id1) id2 = bitset_get set id2 ∧
    bitset_get (bitset_clear set id1) id2 = bitset_get set id2 := by
  by_cases hidx : bitset_index id1 = bitset_index id2
  · have hoff : id1 &&& 0xF ≠ id2 &&& 0xF := by
      intro hcon
      exact hne (by rw [hidx, hcon])
    have hw2 : bitset_word set id2 = bitset_word set id1 := by
      rw [bitset_word, bitset_word, hidx]
    have hwset : bitset_word (bitset_set set id1) id2
        = bitset_word set id1 ||| bitset_mask id1 := by
      rw [bitset_word, ← hidx, ← bitset_word]
      exact bitset_word_set_self set id1 hi1
    have hwclear : bitset_word (bitset_clear set id1) id2
        = bitset_word set id1 &&& (bitset_mask id1 ^^^ 0xFFFF) := by
      rw [bitset_word, ← hidx, ← bitset_word]
      exact bitset_word_clear_self set id1 hi1
    constructor
    · rw [bitset_get_eq_testBit, bitset_get_eq_testBit, hwset, hw2, Nat.testBit_or,
        mask_testBit_ne id1 (id2 &&& 0xF) (fun hc => hoff hc.symm), Bool.or_false]
    · rw [bitset_get_eq_testBit, bitset_get_eq_testBit, hwclear, hw2, Nat.testBit_and,
        clear_complement_testBit_ne id1 (id2 &&& 0xF) (and_0xF_lt_16 id2)
          (fun hc => hoff hc.symm), Bool.and_true]
  · exact ⟨bitset_get_of_word_eq _ _ id2 (bitset_word_set_other set id1 id2 hidx),
      bitset_get_of_word_eq _ _ id2 (bitset_word_clear_other set id1 id2 hidx)⟩

theorem set_clear_independent_witness :
    bitset_get (bitset_set [0, 0] 0x04) 0x1A = bitset_get [0, 0] 0x1A ∧
    bitset_get (bitset_clear [0, 0] 0x04) 0x1A = bitset_get [0, 0] 0x1A :=
  set_clear_independent [0, 0] 0x04 0x1A (by decide) (by decide) (by decide) (by decide)
    (by decide)

/-- C7: the concrete scenario: flag `0x04` lives at word 0, bit 4 with mask
`0x0010`; flag `0x1A` lives at word 1, bit 10 with mask `0x0400`; setting
both on a 2-word zero array and then clearing `0x04` produces the expected
words. -/
theorem concrete_scenario :
    bitset_index 0x04 = 0 ∧ 0x04 &&& 0xF = 4 ∧ bitset_mask 0x04 = 0x0010 ∧
    bitset_index 0x1A = 1 ∧ 0x1A &&& 0xF = 10 ∧ bitset_mask 0x1A = 0x0400 ∧
    bitset_set (bitset_set [0, 0] 0x04) 0x1A = [0x0010, 0x0400] ∧
    bitset_clear (bitset_set (bitset_set [0, 0] 0x04) 0x1A) 0x04 = [0x0000, 0x0400] := by
  decide

/-- C8: boundary and in-bounds safety: `0xFFFF` maps to word 4095, bit 15;
every 16-bit identifier has word index below 4096; and when the storage has
at least `bitset_index id + 1` words, the one index `test`, `set` and
`clear` touch — `bitset_index id` — is in bounds: lengths are preserved and
every other position is untouched. -/
theorem boundary_in_bounds :
    bitset_index 0xFFFF = 4095 ∧ 0xFFFF &&& 0xF = 15 ∧
    (∀ id : Nat, id < 65536 → bitset_index id < 4096) ∧
    (∀ (set : List Nat) (id : Nat), bitset_index id + 1 ≤ set.length →
      bitset_index id < set.length ∧
      (bitset_set set id).length = set.length ∧
      (bitset_clear set id).length = set.length ∧
      (∀ j : Nat, j ≠ bitset_index id →
        (bitset_set set id).getD j 0 = set.getD j 0 ∧
        (bitset_clear set id).getD j 0 = set.getD j 0)) := by
  refine ⟨by decide, by decide, fun id h => ?_, fun set id h => ?_⟩
  · rw [bitset_index_eq_div]
    omega
  · exact ⟨h, bitset_set_length set id, bitset_clear_length set id,
      fun j hj =>
        ⟨getD_set_ne set (bitset_index id) j _ fun hc => hj hc.symm,
         getD_set_ne set (bitset_index id) j _ fun hc => hj hc.symm⟩⟩

theorem boundary_in_bounds_witness :
    bitset_index 0xFFFF < 4096 ∧
    bitset_index 0xFFFF < (List.replicate 4096 (0:Nat)).length :=
  ⟨boundary_in_bounds.2.2.1 0xFFFF (by decide),
   (boundary_in_bounds.2.2.2 (List.replicate 4096 0) 0xFFFF
      (by rw [List.length_replicate]; decide)).1⟩

/-- C9: from any storage state, immediately after `bitset_set` the flag
tests `true`, and immediately after `bitset_clear` it tests `false`,
whatever the prior bits were. -/
theorem set_clear_observed (set : List Nat) (id : Nat) (h : id < 65536)
    (hidx : bitset_index id < set.length) :
    bitset_get (bitset_set set id) id = true ∧
    bitset_get (bitset_clear set id) id = false :=
  ⟨get_set_self set id hidx, get_clear_self set id hidx⟩

theorem set_clear_observed_witness :
    bitset_get (bitset_set [0xFFFF, 0x123] 0x1A) 0x1A = true ∧
    bitset_get (bitset_clear [0xFFFF, 0x123] 0x1A) 0x1A = false :=
  set_clear_observed [0xFFFF, 0x123] 0x1A (by decide) (by decide)

/-- C10: two `bitset_set` calls commute, and two `bitset_clear` calls
commute, for any pair of in-range identifiers, sharing a word or not. -/
theorem set_clear_commute (set : List Nat) (id1 id2 : Nat)
    (h1 : id1 < 65536) (h2 : id2 < 65536)
    (hi1 : bitset_index id1 < set.length) (hi2 : bitset_index id2 < set.length) :
    bitset_set (bitset_set set id1) id2 = bitset_set (bitset_set set id2) id1 ∧
    bitset_clear (bitset_clear set id1) id2 = bitset_clear (bitset_clear set id2) id1 := by
  by_cases hidx : bitset_index id1 = bitset_index id2
  · have hw2 : bitset_word set id2 = bitset_word set id1 := by
      rw [bitset_word, bitset_word, hidx]
    constructor
    · rw [bitset_set_twice_same set id1 id2 hidx hi1,
        bitset_set_twice_same set id2 id1 hidx.symm hi2, hidx, hw2,
        Nat.or_assoc, Nat.or_assoc, Nat.or_comm (bitset_mask id1) (bitset_mask id2)]
    · rw [bitset_clear_twice_same set id1 id2 hidx hi1,
        bitset_clear_twice_same set id2 id1 hidx.symm hi2, hidx, hw2,
        Nat.and_assoc, Nat.and_assoc,
        Nat.and_comm (bitset_mask id1 ^^^ 0xFFFF) (bitset_mask id2 ^^^ 0xFFFF)]
  · constructor
    · rw [bitset_set_twice_other set id1 id2 hidx,
        bitset_set_twice_other set id2 id1 (Ne.symm hidx),
        bitset_set, bitset_set, List.set_comm _ _ _ hidx]
    · rw [bitset_clear_twice_other set id1 id2 hidx,
        bitset_clear_twice_other set id2 id1 (Ne.symm hidx),
        bitset_clear, bitset_clear, List.set_comm _ _ _ hidx]

theorem set_clear_commute_witness :
    bitset_set (bitset_set [0, 0] 0x04) 0x1A = bitset_set (bitset_set [0, 0] 0x1A) 0x04 ∧
    bitset_clear (bitset_clear [0, 0] 0x04) 0x1A
      = bitset_clear (bitset_clear [0, 0] 0x1A) 0x04 :=
  set_clear_commute [0, 0] 0x04 0x1A (by decide) (by decide) (by decide) (by decide)
